import Mathlib

/-!
Verification of the matching-session layer of a PCRE2 wrapper
(`src/regex_impl.rs`): match views, compile-flag translation, capture-name
maps, capture lookup, and the non-overlapping match iteration protocol.

Subjects are sequences of code units, modelled as `List Nat`. The native
engine (`ffi::MatchData::find` plus the ovector it populates) lives outside
this repository's core file, so a single search is abstracted as a function
from start offset to a search outcome; everything above that abstraction is
a direct transliteration of `regex_impl.rs`.
-/

/-- Error values reported by the engine, modelled as numeric codes. -/
abbrev EngErr := Nat

/-- Rust slice expression `&xs[s..e]`: `none` models the panic when
`s > e` or `e > xs.length`. -/
def slice? (xs : List Nat) (s e : Nat) : Option (List Nat) :=
  if s ≤ e ∧ e ≤ xs.length then some ((xs.drop s).take (e - s)) else none

/-- Type `Match` from `regex_impl.rs`: a view holding a subject reference and
start/end offsets. (`end` is a Lean keyword, so the field is `endPos`.) -/
structure Match where
  subject : List Nat
  start : Nat
  endPos : Nat
deriving DecidableEq, Repr

/-- Method `Match::as_bytes`: `&self.subject[self.start..self.end]`; `none` models
the slicing panic. -/
def Match.as_bytes (m : Match) : Option (List Nat) :=
  slice? m.subject m.start m.endPos

/-- Modelled from the spec: outcome of one engine search
(`match_data.find` plus reading the ovector). `found s e rest` means the
search succeeded and the populated ovector is `s :: e :: rest`; the ovector
always holds at least the pair for group 0 (spec §6: `match(...) ->
Result<bool, EngineError>` populating the scratch's offset pairs, group 0
first). `noMatch` is the engine's normal "no match" result; `err` is any
other engine failure. -/
inductive SearchRes where
  | err (e : EngErr)
  | noMatch
  | found (s e : Nat) (rest : List Nat)
deriving DecidableEq, Repr

/-- Modelled from the spec: the engine search for a fixed compiled pattern,
subject and match-time options, as a function of the start offset
(spec §4.2 Search Session). -/
def SearchFn := Nat → SearchRes

/-- An engine is start-sane when any match it reports begins at or after
the requested start offset. -/
def EngineSane (eng : SearchFn) : Prop :=
  ∀ start s e rest, eng start = .found s e rest → start ≤ s

/-- Result of `is_match_at`: `panicAt` models the `assert!` failure. -/
inductive MatchedRes where
  | panicAt
  | err (e : EngErr)
  | ok (b : Bool)
deriving DecidableEq, Repr

/-- Result of `find_at` / `find_at_with_match_data`: `panicAt` models a
panic (failed `assert!` or out-of-bounds slice). -/
inductive FindRes where
  | panicAt
  | err (e : EngErr)
  | ok (m : Option Match)
deriving DecidableEq, Repr

/-- What `is_match_at` does after its assertion passes: delegate to the
engine and turn found/no-match into a boolean. -/
def searchToBool : SearchRes → MatchedRes
  | .err e => .err e
  | .noMatch => .ok false
  | .found _ _ _ => .ok true

/-- What `find_at_with_match_data` does after its assertion passes: on a
match, read `(s, e)` from ovector slots 0 and 1 and build
`Match::new(&subject[s..e], s, e)`. -/
def searchToFind (subject : List Nat) : SearchRes → FindRes
  | .err e => .err e
  | .noMatch => .ok none
  | .found s e _ =>
    match slice? subject s e with
    | some sub => .ok (some ⟨sub, s, e⟩)
    | none => .panicAt

/-- Method `Regex::is_match_at`: assert `start <= subject.len()`, then search. -/
def is_match_at (eng : SearchFn) (subject : List Nat) (start : Nat) : MatchedRes :=
  if start ≤ subject.length then searchToBool (eng start) else .panicAt

/-- Method `Regex::find_at_with_match_data` (also the body of `Regex::find_at`):
assert `start <= subject.len()`, search, and on success return
`Match::new(&subject[s..e], s, e)`. -/
def find_at_with_match_data (eng : SearchFn) (subject : List Nat) (start : Nat) : FindRes :=
  if start ≤ subject.length then searchToFind subject (eng start) else .panicAt

/-- Method `Regex::find_at` delegates to `find_at_with_match_data`. -/
def find_at (eng : SearchFn) (subject : List Nat) (start : Nat) : FindRes :=
  find_at_with_match_data eng subject start

/-- Result of `captures_read_at`: like `FindRes` but a success also carries
the populated capture ovector. -/
inductive CapRes where
  | panicAt
  | err (e : EngErr)
  | ok (r : Option (Match × List Nat))
deriving DecidableEq, Repr

/-- What `captures_read_at` does after its assertion passes: search into
the given locations, and on a match return the overall `Match` (built the
same way as in `find_at`) together with the populated ovector. -/
def searchToCaps (subject : List Nat) : SearchRes → CapRes
  | .err e => .err e
  | .noMatch => .ok none
  | .found s e rest =>
    match slice? subject s e with
    | some sub => .ok (some (⟨sub, s, e⟩, s :: e :: rest))
    | none => .panicAt

/-- Method `Regex::captures_read_at`: assert `start <= subject.len()`, then search
and populate the capture locations. -/
def captures_read_at (eng : SearchFn) (subject : List Nat) (start : Nat) : CapRes :=
  if start ≤ subject.length then searchToCaps subject (eng start) else .panicAt

/-- Constant `PCRE2_UNSET`: the engine's sentinel for a non-participating group
(`PCRE2_SIZE` all-ones, i.e. `2^64 - 1`). -/
def PCRE2_UNSET : Nat := 2 ^ 64 - 1

/-- Type `CaptureLocations`: the populated flat ovector of a search (the engine
handle it also carries plays no part in lookups). -/
structure CaptureLocations where
  ovector : List Nat
deriving DecidableEq, Repr

/-- Method `CaptureLocations::get`: read slots `2i` and `2i+1`; out-of-range slots
or the `PCRE2_UNSET` sentinel give `None`. -/
def CaptureLocations.get (l : CaptureLocations) (i : Nat) : Option (Nat × Nat) :=
  match l.ovector.get? (i * 2) with
  | none => none
  | some s =>
    if s = PCRE2_UNSET then none
    else
      match l.ovector.get? (i * 2 + 1) with
      | none => none
      | some e => if e = PCRE2_UNSET then none else some (s, e)

/-- Method `CaptureLocations::len`: half the ovector length. -/
def CaptureLocations.len (l : CaptureLocations) : Nat :=
  l.ovector.length / 2

/-- Type `Captures`: subject reference, capture locations and the shared
name→index map (modelled as an association list where the most recent
insertion comes first, matching `HashMap` insert-with-overwrite). -/
structure Captures where
  subject : List Nat
  locs : CaptureLocations
  idx : List (String × Nat)
deriving DecidableEq, Repr

/-- Lookup `HashMap::get` on the association-list model: the most recently
inserted binding for a key wins. -/
def mapFind (m : List (String × Nat)) (k : String) : Option Nat :=
  (m.find? (fun p => p.1 == k)).map (fun p => p.2)

/-- The capture-name indexing loop in `RegexBuilder::build`: iterate groups
in index order (`i` is the running index) and insert `name → i` for each
named group, overwriting earlier bindings of the same name. -/
def buildNameIdxFrom : Nat → List (Option String) → List (String × Nat) → List (String × Nat)
  | _, [], m => m
  | i, g :: rest, m =>
    buildNameIdxFrom (i + 1) rest
      (match g with
       | some name => (name, i) :: m
       | none => m)

/-- The name→index map `RegexBuilder::build` stores in the `Regex`. -/
def buildNameIdx (names : List (Option String)) : List (String × Nat) :=
  buildNameIdxFrom 0 names []

/-- Method `Captures::get`: positional lookup, wrapping offsets over the full
subject. -/
def Captures.get (c : Captures) (i : Nat) : Option Match :=
  (c.locs.get i).map (fun p => ⟨c.subject, p.1, p.2⟩)

/-- Method `Captures::name`: map lookup followed by the positional lookup. -/
def Captures.name (c : Captures) (nm : String) : Option Match :=
  (mapFind c.idx nm).bind (fun i => c.get i)

/-- Impl `Index<usize> for Captures` (`caps[i]`): `none` models the panic, both
when the group is missing/non-participating and when `as_bytes` itself
would panic. -/
def Captures.indexPos (c : Captures) (i : Nat) : Option (List Nat) :=
  (c.get i).bind (fun m => m.as_bytes)

/-- Impl `Index<&str> for Captures` (`caps[name]`): `none` models the panic. -/
def Captures.indexName (c : Captures) (nm : String) : Option (List Nat) :=
  (c.name nm).bind (fun m => m.as_bytes)

/-- Iterator state shared by `Matches` and `CaptureMatches`: the search
floor and the end of the previously yielded match. -/
structure IterState where
  last_end : Nat
  last_match : Option Nat
deriving DecidableEq, Repr

/-- The state `find_iter` / `captures_iter` start from. -/
def IterState.initial : IterState := ⟨0, none⟩

/-- One outcome of `Matches::next`: `stop` is `None`, `yieldErr`/`yieldMatch`
are `Some(Err _)`/`Some(Ok _)`, `panicked` propagates a panic from the
search, and `outOfFuel` reports that the modelling fuel for the
suppressed-empty-match recursion ran out (the Rust recursion has no such
bound; the theorems show a start-sane engine never reaches it). -/
inductive NextRes where
  | stop
  | yieldErr (e : EngErr)
  | yieldMatch (m : Match)
  | panicked
  | outOfFuel
deriving DecidableEq, Repr

/-- One pass through the body of `Matches::next`: either the call returns
(`done`), or the `return self.next()` on a suppressed empty match re-runs
the body from the advanced state (`retry`). -/
inductive MatchesStep where
  | done (r : NextRes) (st' : IterState)
  | retry (st' : IterState)
deriving DecidableEq, Repr

/-- The body of `Matches::next`: check exhaustion, search at `last_end`,
and apply the empty-match advancement/suppression rule. -/
def matchesStepFn (eng : SearchFn) (subject : List Nat) (st : IterState) : MatchesStep :=
  if subject.length < st.last_end then .done .stop st
  else
    match find_at_with_match_data eng subject st.last_end with
    | .panicAt => .done .panicked st
    | .err e => .done (.yieldErr e) st
    | .ok none => .done .stop st
    | .ok (some m) =>
      if m.start = m.endPos then
        if some m.endPos = st.last_match then
          .retry ⟨m.endPos + 1, st.last_match⟩
        else
          .done (.yieldMatch m) ⟨m.endPos + 1, some m.endPos⟩
      else
        .done (.yieldMatch m) ⟨m.endPos, some m.endPos⟩

/-- Method `Matches::next`, fuelled: run the body, following `retry` steps. Fuel
is consumed only by the suppressed-empty-match recursion, which is
unbounded in the Rust source. -/
def Matches.nextAux (eng : SearchFn) (subject : List Nat) :
    Nat → IterState → NextRes × IterState
  | fuel, st =>
    match matchesStepFn eng subject st with
    | .done r st' => (r, st')
    | .retry st' =>
      match fuel with
      | 0 => (.outOfFuel, st)
      | f + 1 => Matches.nextAux eng subject f st'

/-- Method `Matches::next` with enough fuel for any start-sane engine. -/
def Matches.next (eng : SearchFn) (subject : List Nat) (st : IterState) :
    NextRes × IterState :=
  Matches.nextAux eng subject (subject.length + 2) st

/-- One outcome of `CaptureMatches::next`. -/
inductive CapNextRes where
  | stop
  | yieldErr (e : EngErr)
  | yieldCaps (c : Captures)
  | panicked
  | outOfFuel
deriving DecidableEq, Repr

/-- One pass through the body of `CaptureMatches::next`. -/
inductive CapStep where
  | done (r : CapNextRes) (st' : IterState)
  | retry (st' : IterState)
deriving DecidableEq, Repr

/-- The body of `CaptureMatches::next`: identical control flow to
`Matches::next`, but each step populates fresh capture locations and a
yield wraps them in a `Captures` over the full subject. -/
def capStepFn (eng : SearchFn) (idx : List (String × Nat)) (subject : List Nat)
    (st : IterState) : CapStep :=
  if subject.length < st.last_end then .done .stop st
  else
    match captures_read_at eng subject st.last_end with
    | .panicAt => .done .panicked st
    | .err e => .done (.yieldErr e) st
    | .ok none => .done .stop st
    | .ok (some (m, ovec)) =>
      if m.start = m.endPos then
        if some m.endPos = st.last_match then
          .retry ⟨m.endPos + 1, st.last_match⟩
        else
          .done (.yieldCaps ⟨subject, ⟨ovec⟩, idx⟩) ⟨m.endPos + 1, some m.endPos⟩
      else
        .done (.yieldCaps ⟨subject, ⟨ovec⟩, idx⟩) ⟨m.endPos, some m.endPos⟩

/-- Method `CaptureMatches::next`, fuelled: run the body, following `retry`
steps. -/
def CaptureMatches.nextAux (eng : SearchFn) (idx : List (String × Nat)) (subject : List Nat) :
    Nat → IterState → CapNextRes × IterState
  | fuel, st =>
    match capStepFn eng idx subject st with
    | .done r st' => (r, st')
    | .retry st' =>
      match fuel with
      | 0 => (.outOfFuel, st)
      | f + 1 => CaptureMatches.nextAux eng idx subject f st'

/-- Method `CaptureMatches::next` with enough fuel for any start-sane engine. -/
def CaptureMatches.next (eng : SearchFn) (idx : List (String × Nat)) (subject : List Nat)
    (st : IterState) : CapNextRes × IterState :=
  CaptureMatches.nextAux eng idx subject (subject.length + 2) st

/-- Driving `find_iter`: repeatedly call `Matches::next`, collecting every
produced item; `stop` ends the run, any other non-match item is kept as a
final element. The outer fuel only bounds the number of `next` calls the
driver makes. -/
def runIter (eng : SearchFn) (subject : List Nat) :
    Nat → IterState → List NextRes
  | 0, _ => []
  | fuel + 1, st =>
    match Matches.next eng subject st with
    | (.stop, _) => []
    | (.yieldMatch m, st') => .yieldMatch m :: runIter eng subject fuel st'
    | (r, _) => [r]

/-- The `(start, end)` ranges of the matches in a run. -/
def yieldedRanges (l : List NextRes) : List (Nat × Nat) :=
  l.filterMap (fun r =>
    match r with
    | .yieldMatch m => some (m.start, m.endPos)
    | _ => none)

/-- Flag `PCRE2_CASELESS` (0x00000008). -/
def PCRE2_CASELESS : Nat := 8
/-- Flag `PCRE2_DOTALL` (0x00000020). -/
def PCRE2_DOTALL : Nat := 32
/-- Flag `PCRE2_EXTENDED` (0x00000080). -/
def PCRE2_EXTENDED : Nat := 128
/-- Flag `PCRE2_MULTILINE` (0x00000400). -/
def PCRE2_MULTILINE : Nat := 1024
/-- Flag `PCRE2_NEVER_UTF` (0x00010000). -/
def PCRE2_NEVER_UTF : Nat := 65536
/-- Flag `PCRE2_UCP` (0x00020000). -/
def PCRE2_UCP : Nat := 131072
/-- Flag `PCRE2_UTF` (0x00080000). -/
def PCRE2_UTF : Nat := 524288

/-- Type `JITChoice` from `regex_impl.rs`. -/
inductive JITChoice where
  | Never
  | Always
  | Attempt
deriving DecidableEq, Repr

/-- Match-time configuration knobs (`MatchConfig`). -/
structure MatchConfig where
  max_jit_stack_size : Option Nat
deriving DecidableEq, Repr

/-- Type `Config` from `regex_impl.rs`. -/
structure Config where
  caseless : Bool
  dotall : Bool
  extended : Bool
  multi_line : Bool
  crlf : Bool
  ucp : Bool
  utf : Bool
  never_utf : Bool
  utf_check : Bool
  jit : JITChoice
  match_config : MatchConfig
deriving DecidableEq, Repr

/-- The compile-flag word built at the top of `RegexBuilder::build`: OR in
each flag for each enabled option, in source order; `ucp` ORs in both
`PCRE2_UCP` and `PCRE2_UTF`. -/
def compileOptions (c : Config) : Nat :=
  let o := 0
  let o := if c.caseless then o ||| PCRE2_CASELESS else o
  let o := if c.dotall then o ||| PCRE2_DOTALL else o
  let o := if c.extended then o ||| PCRE2_EXTENDED else o
  let o := if c.multi_line then o ||| PCRE2_MULTILINE else o
  let o := if c.ucp then o ||| PCRE2_UCP ||| PCRE2_UTF else o
  let o := if c.utf then o ||| PCRE2_UTF else o
  let o := if c.never_utf then o ||| PCRE2_NEVER_UTF else o
  o

/-- The code unit for the letter a. -/
def aUnit : Nat := 97

/-- The length of the run of a-units at the head of a list. -/
def aRun : List Nat → Nat
  | [] => 0
  | u :: rest => if u = aUnit then aRun rest + 1 else 0

/-- Modelled from the spec: a leftmost-first engine for the pattern `a*`
over a fixed subject — at each start offset it matches the longest run of
a-units starting there (possibly empty), so every search succeeds with
`s = start`. -/
def engAStar (subject : List Nat) : SearchFn :=
  fun start => .found start (start + aRun (subject.drop start)) []

/-- A concrete engine that reports the match `[1, 2)` at every offset. -/
def engAt12 : SearchFn := fun _ => .found 1 2 []

/-- A concrete engine that fails with error code 7 at every offset. -/
def engErr7 : SearchFn := fun _ => .err 7

/-- The subject `"aaa"`. -/
def subjAAA : List Nat := [97, 97, 97]

/-- The subject `"aaab"`. -/
def subjAAAB : List Nat := [97, 97, 97, 98]

/-- The index of the last occurrence of `some nm` in a list of optional
group names (the spec's "last-declared group with a given name"). -/
def lastNameIdx (nm : String) : List (Option String) → Option Nat
  | [] => none
  | g :: rest =>
    match lastNameIdx nm rest with
    | some j => some (j + 1)
    | none => if g = some nm then some 0 else none

/-- C1. The spec requires every `Match` view produced by a successful
search to satisfy `start ≤ end ≤ len(stored subject)` with `as_bytes()`
returning the engine-reported code units. The code instead stores the
slice `&subject[s..e]` while keeping the absolute offsets, so a successful
`find_at` for the engine-reported range `[1, 2)` on the subject
`[97, 98, 99]` yields a view whose stored subject has length 1 but whose
`end` is 2, and whose `as_bytes()` panics instead of returning `[98]`. -/
theorem find_at_match_view_bug :
    find_at engAt12 [97, 98, 99] 0 = .ok (some ⟨[98], 1, 2⟩)
    ∧ slice? [97, 98, 99] 1 2 = some [98]
    ∧ ¬ (2 : Nat) ≤ ([98] : List Nat).length
    ∧ Match.as_bytes ⟨[98], 1, 2⟩ = none := by
  decide

/-- C3. Under the `a*` engine model, `find_iter` on `"aaa"` yields exactly
the single match `[0, 3)` (the adjacent empty match at offset 3 is
suppressed), and on `"aaab"` exactly `[0, 3)` then `[4, 4)`. -/
theorem find_iter_astar_adjacency :
    runIter (engAStar subjAAA) subjAAA 10 IterState.initial
      = [.yieldMatch ⟨[97, 97, 97], 0, 3⟩]
    ∧ runIter (engAStar subjAAAB) subjAAAB 10 IterState.initial
      = [.yieldMatch ⟨[97, 97, 97], 0, 3⟩, .yieldMatch ⟨[], 4, 4⟩]
    ∧ yieldedRanges (runIter (engAStar subjAAA) subjAAA 10 IterState.initial) = [(0, 3)]
    ∧ yieldedRanges (runIter (engAStar subjAAAB) subjAAAB 10 IterState.initial)
      = [(0, 3), (4, 4)] := by
  decide

/-- C6 counterexample. The claim says a yielded search error is terminal:
no further items on subsequent `next()` calls. With an engine that fails
deterministically, `next()` yields the error and leaves the state
unchanged, so the following `next()` call yields the very same error item
again rather than nothing. -/
theorem matches_next_error_not_terminal :
    Matches.next engErr7 [] IterState.initial = (.yieldErr 7, IterState.initial)
    ∧ Matches.next engErr7 [] (Matches.next engErr7 [] IterState.initial).2
      = (.yieldErr 7, IterState.initial)
    ∧ (Matches.next engErr7 [] (Matches.next engErr7 [] IterState.initial).2).1 ≠ .stop := by
  decide

/-- C6 amended. When the search inside `Matches::next` or
`CaptureMatches::next` returns a genuine error, the call yields that error
immediately (no internal retry) and leaves the iterator state unchanged;
the iterator does not fuse, so stopping after an error is the caller's
responsibility. -/
theorem iter_error_yield_immediate (eng : SearchFn) (idx : List (String × Nat))
    (subject : List Nat) (st : IterState) (e : EngErr)
    (hle : st.last_end ≤ subject.length) (herr : eng st.last_end = .err e) :
    Matches.next eng subject st = (.yieldErr e, st)
    ∧ CaptureMatches.next eng idx subject st = (.yieldErr e, st) := by
  have hnl : ¬ subject.length < st.last_end := by omega
  constructor
  · simp [Matches.next, Matches.nextAux, matchesStepFn, hnl, find_at_with_match_data, hle,
      herr, searchToFind]
  · simp [CaptureMatches.next, CaptureMatches.nextAux, capStepFn, hnl, captures_read_at, hle,
      herr, searchToCaps]

/-- C6 amended, witnessed on the deterministic failing engine. -/
theorem iter_error_yield_immediate_witness :
    Matches.next engErr7 [] IterState.initial = (.yieldErr 7, IterState.initial)
    ∧ CaptureMatches.next engErr7 [] [] IterState.initial = (.yieldErr 7, IterState.initial) :=
  iter_error_yield_immediate engErr7 [] [] IterState.initial 7 (by decide) rfl

/-- C7. For `start > len(subject)` each of `is_match_at`, `find_at` and
`captures_read_at` panics via the assertion rather than returning a
recoverable result; for `start ≤ len(subject)` the assertion never fires
and each call proceeds to the engine search (its outcome is exactly the
translation of the engine result, and `is_match_at` in particular can
never panic). -/
theorem search_at_assert_guard (eng : SearchFn) (subject : List Nat) (start : Nat) :
    (subject.length < start →
      is_match_at eng subject start = .panicAt
      ∧ find_at eng subject start = .panicAt
      ∧ captures_read_at eng subject start = .panicAt)
    ∧ (start ≤ subject.length →
      is_match_at eng subject start = searchToBool (eng start)
      ∧ is_match_at eng subject start ≠ .panicAt
      ∧ find_at eng subject start = searchToFind subject (eng start)
      ∧ captures_read_at eng subject start = searchToCaps subject (eng start)) := by
  constructor
  · intro h
    have hnle : ¬ start ≤ subject.length := by omega
    refine ⟨?_, ?_, ?_⟩ <;>
      simp [is_match_at, find_at, find_at_with_match_data, captures_read_at, hnle]
  · intro h
    refine ⟨?_, ?_, ?_, ?_⟩ <;>
      simp [is_match_at, find_at, find_at_with_match_data, captures_read_at, h]
    cases eng start <;> simp [searchToBool]

/-- C7 witness: at `start = 1` on the empty subject all three calls panic;
at `start = 0` the call proceeds to the search. -/
theorem search_at_assert_guard_witness :
    (is_match_at engErr7 [] 1 = .panicAt
      ∧ find_at engErr7 [] 1 = .panicAt
      ∧ captures_read_at engErr7 [] 1 = .panicAt)
    ∧ is_match_at engErr7 [] 0 ≠ .panicAt :=
  ⟨(search_at_assert_guard engErr7 [] 1).1 (by decide),
   ((search_at_assert_guard engErr7 [] 0).2 (by decide)).2.1⟩

/-- C9. The compile-flag word contains exactly the engine flag for each
enabled boolean option, and enabling `ucp` forces `PCRE2_UTF` in addition
to `PCRE2_UCP`, even when the `utf` option itself is off: the word equals
the sum of the distinct flags of the enabled options, and each flag bit is
set if and only if the corresponding option (for the UTF bit: `utf ∨ ucp`)
is enabled. -/
theorem build_compile_flags (c : Config) :
    compileOptions c =
      (if c.caseless then PCRE2_CASELESS else 0)
      + (if c.dotall then PCRE2_DOTALL else 0)
      + (if c.extended then PCRE2_EXTENDED else 0)
      + (if c.multi_line then PCRE2_MULTILINE else 0)
      + (if c.ucp then PCRE2_UCP else 0)
      + (if c.utf || c.ucp then PCRE2_UTF else 0)
      + (if c.never_utf then PCRE2_NEVER_UTF else 0)
    ∧ (compileOptions c).testBit 3 = c.caseless
    ∧ (compileOptions c).testBit 5 = c.dotall
    ∧ (compileOptions c).testBit 7 = c.extended
    ∧ (compileOptions c).testBit 10 = c.multi_line
    ∧ (compileOptions c).testBit 16 = c.never_utf
    ∧ (compileOptions c).testBit 17 = c.ucp
    ∧ (compileOptions c).testBit 19 = (c.utf || c.ucp) := by
  simp only [compileOptions]
  cases h1 : c.caseless <;> cases h2 : c.dotall <;> cases h3 : c.extended <;>
    cases h4 : c.multi_line <;> cases h5 : c.ucp <;> cases h6 : c.utf <;>
    cases h7 : c.never_utf <;> decide

/-- C10. Indexing `Captures` panics exactly where `get`/`name` return
`None`: `caps[i]` panics when group `i` is out of range or did not
participate, `caps[name]` panics when the name-map lookup or the
positional lookup fails, and when the group did participate the indexed
value is the matched slice of the subject. -/
theorem captures_index_spec (c : Captures) (i : Nat) (nm : String) :
    (c.get i = none → c.indexPos i = none)
    ∧ (∀ s e, c.locs.get i = some (s, e) → c.indexPos i = slice? c.subject s e)
    ∧ (c.name nm = none → c.indexName nm = none)
    ∧ (∀ k s e, mapFind c.idx nm = some k → c.locs.get k = some (s, e) →
        c.indexName nm = slice? c.subject s e) := by
  refine ⟨?_, ?_, ?_, ?_⟩
  · intro h; simp [Captures.indexPos, h]
  · intro s e h
    simp [Captures.indexPos, Captures.get, h, Match.as_bytes]
  · intro h; simp [Captures.indexName, h]
  · intro k s e hk hg
    simp [Captures.indexName, Captures.name, Captures.get, hk, hg, Match.as_bytes]

/-- C10, witnessed on a concrete `Captures` value: group 0 participates
(`caps[0]` is the matched slice), group 1 maps to the unset sentinel so
`caps[1]` and `caps["foo"]` panic, and the unknown name `"bar"` panics. -/
theorem captures_index_spec_witness :
    (Captures.indexPos ⟨[97, 98, 99], ⟨[0, 3, PCRE2_UNSET, PCRE2_UNSET]⟩, [("foo", 1)]⟩ 0
      = some [97, 98, 99])
    ∧ (Captures.indexPos ⟨[97, 98, 99], ⟨[0, 3, PCRE2_UNSET, PCRE2_UNSET]⟩, [("foo", 1)]⟩ 1
      = none)
    ∧ (Captures.indexName ⟨[97, 98, 99], ⟨[0, 3, PCRE2_UNSET, PCRE2_UNSET]⟩, [("foo", 1)]⟩ "foo"
      = none)
    ∧ (Captures.indexName ⟨[97, 98, 99], ⟨[0, 3, PCRE2_UNSET, PCRE2_UNSET]⟩, [("foo", 1)]⟩ "bar"
      = none) := by
  refine ⟨?_, ?_, ?_, ?_⟩
  · have := (captures_index_spec
      ⟨[97, 98, 99], ⟨[0, 3, PCRE2_UNSET, PCRE2_UNSET]⟩, [("foo", 1)]⟩ 0 "foo").2.1 0 3
      (by decide)
    rw [this]; decide
  · exact (captures_index_spec
      ⟨[97, 98, 99], ⟨[0, 3, PCRE2_UNSET, PCRE2_UNSET]⟩, [("foo", 1)]⟩ 1 "foo").1 (by decide)
  · exact (captures_index_spec
      ⟨[97, 98, 99], ⟨[0, 3, PCRE2_UNSET, PCRE2_UNSET]⟩, [("foo", 1)]⟩ 1 "foo").2.2.1 (by decide)
  · exact (captures_index_spec
      ⟨[97, 98, 99], ⟨[0, 3, PCRE2_UNSET, PCRE2_UNSET]⟩, [("foo", 1)]⟩ 1 "bar").2.2.1 (by decide)

/-- The lookup into the map built by the naming loop: starting the loop at
index `i` with accumulator `acc`, a name maps to `i` plus its last
occurrence index in the remaining group list, falling back to the
accumulator when the name does not occur. -/
theorem mapFind_buildNameIdxFrom (nm : String) :
    ∀ (names : List (Option String)) (i : Nat) (acc : List (String × Nat)),
      mapFind (buildNameIdxFrom i names acc) nm =
        match lastNameIdx nm names with
        | some j => some (i + j)
        | none => mapFind acc nm := by
  intro names
  induction names with
  | nil => intro i acc; simp [buildNameIdxFrom, lastNameIdx]
  | cons g rest ih =>
    intro i acc
    simp only [buildNameIdxFrom, lastNameIdx, ih]
    cases hrest : lastNameIdx nm rest with
    | some j =>
      simp only []
      congr 1
      omega
    | none =>
      cases g with
      | none => simp
      | some name =>
        by_cases hname : name = nm
        · subst hname
          simp [mapFind, List.find?]
        · have hbe : (name == nm) = false := by
            simp [hname]
          simp [mapFind, List.find?, hbe, hname]

/-- A name with no occurrence has no last occurrence index. -/
theorem lastNameIdx_eq_none (nm : String) :
    ∀ names : List (Option String), (∀ k, names.get? k ≠ some (some nm)) →
      lastNameIdx nm names = none := by
  intro names
  induction names with
  | nil => intro _; rfl
  | cons g rest ih =>
    intro h
    have hrest : lastNameIdx nm rest = none := ih (fun k => h (k + 1))
    have hg : g ≠ some nm := fun he => h 0 (by simp [he])
    simp [lastNameIdx, hrest, hg]

/-- The last occurrence index computed from a last-occurrence hypothesis. -/
theorem lastNameIdx_of_last (nm : String) :
    ∀ (names : List (Option String)) (j : Nat),
      names.get? j = some (some nm) →
      (∀ k, j < k → names.get? k ≠ some (some nm)) →
      lastNameIdx nm names = some j := by
  intro names
  induction names with
  | nil => intro j hj _; simp at hj
  | cons g rest ih =>
    intro j hj hlast
    cases j with
    | zero =>
      simp at hj
      have hrest : lastNameIdx nm rest = none :=
        lastNameIdx_eq_none nm rest (fun k => hlast (k + 1) (by omega))
      simp [lastNameIdx, hrest, hj]
    | succ j' =>
      have hj' : rest.get? j' = some (some nm) := by simpa using hj
      have hlast' : ∀ k, j' < k → rest.get? k ≠ some (some nm) := by
        intro k hk
        have := hlast (k + 1) (by omega)
        simpa using this
      simp [lastNameIdx, ih j' hj' hlast']

/-- C8. The name→index map built by `RegexBuilder::build` sends a
duplicated name to the index of the last-declared group bearing it, and
`Captures::name` is the map lookup composed with the positional lookup,
returning `None` (not an error) when the name is absent or its group did
not participate. -/
theorem build_name_map_last_wins (names : List (Option String)) (nm : String) (c : Captures) :
    (∀ j, names.get? j = some (some nm) →
      (∀ k, j < k → names.get? k ≠ some (some nm)) →
      mapFind (buildNameIdx names) nm = some j)
    ∧ Captures.name c nm = (mapFind c.idx nm).bind (fun t => c.get t)
    ∧ (mapFind c.idx nm = none → c.name nm = none)
    ∧ (∀ i, mapFind c.idx nm = some i → c.get i = none → c.name nm = none) := by
  refine ⟨?_, rfl, ?_, ?_⟩
  · intro j hj hlast
    rw [buildNameIdx, mapFind_buildNameIdxFrom, lastNameIdx_of_last nm names j hj hlast]
    simp
  · intro h; simp [Captures.name, h]
  · intro i hi hg; simp [Captures.name, hi, hg]

/-- C8, witnessed on a group list where the name `x` occurs at indices 0
and 2: the map sends `x` to 2, and on a `Captures` whose group 2 is unset
the named lookup returns `None`. -/
theorem build_name_map_last_wins_witness :
    mapFind (buildNameIdx [some "x", none, some "x"]) "x" = some 2
    ∧ Captures.name ⟨[97], ⟨[0, 1, 5, 5, PCRE2_UNSET, PCRE2_UNSET]⟩,
        buildNameIdx [some "x", none, some "x"]⟩ "x" = none := by
  have hmap := (build_name_map_last_wins [some "x", none, some "x"] "x"
    ⟨[97], ⟨[0, 1, 5, 5, PCRE2_UNSET, PCRE2_UNSET]⟩,
      buildNameIdx [some "x", none, some "x"]⟩).1 2 (by decide)
    (by
      intro k hk
      have hlen : ([some "x", none, some "x"] : List (Option String)).length ≤ k := by
        simp; omega
      rw [List.get?_eq_none.mpr hlen]
      simp)
  refine ⟨hmap, ?_⟩
  exact (build_name_map_last_wins [some "x", none, some "x"] "x"
    ⟨[97], ⟨[0, 1, 5, 5, PCRE2_UNSET, PCRE2_UNSET]⟩,
      buildNameIdx [some "x", none, some "x"]⟩).2.2.2 2 hmap (by decide)

/-- A successful Rust slice is within bounds. -/
theorem slice?_some_bounds {xs : List Nat} {s e : Nat} {sub : List Nat}
    (h : slice? xs s e = some sub) : s ≤ e ∧ e ≤ xs.length := by
  by_cases hb : s ≤ e ∧ e ≤ xs.length
  · exact hb
  · simp [slice?, hb] at h

/-- Inversion of a successful `find_at_with_match_data`: the assertion
held, the engine reported the view's offsets, and the stored subject is
the engine-reported slice. -/
theorem find_at_ok_some_inv (eng : SearchFn) (subject : List Nat) (start : Nat) (m : Match)
    (h : find_at_with_match_data eng subject start = .ok (some m)) :
    start ≤ subject.length
    ∧ (∃ rest, eng start = .found m.start m.endPos rest)
    ∧ slice? subject m.start m.endPos = some m.subject := by
  unfold find_at_with_match_data at h
  by_cases hle : start ≤ subject.length
  · rw [if_pos hle] at h
    cases he : eng start with
    | err e => rw [he] at h; simp [searchToFind] at h
    | noMatch => rw [he] at h; simp [searchToFind] at h
    | found s e rest =>
      rw [he] at h
      simp only [searchToFind] at h
      cases hs : slice? subject s e with
      | none => rw [hs] at h; simp at h
      | some sub =>
        rw [hs] at h
        cases m with
        | mk msub mstart mend =>
          simp only [FindRes.ok.injEq, Option.some.injEq, Match.mk.injEq] at h
          obtain ⟨h1, h2, h3⟩ := h
          subst h1; subst h2; subst h3
          exact ⟨hle, ⟨rest, rfl⟩, hs⟩
  · rw [if_neg hle] at h
    simp at h

/-- Inversion of a successful `captures_read_at`: the assertion held, the
engine reported the view's offsets, and the retained ovector starts with
exactly that offset pair. -/
theorem captures_read_at_ok_some_inv (eng : SearchFn) (subject : List Nat) (start : Nat)
    (m : Match) (ovec : List Nat)
    (h : captures_read_at eng subject start = .ok (some (m, ovec))) :
    start ≤ subject.length
    ∧ (∃ rest, eng start = .found m.start m.endPos rest ∧ ovec = m.start :: m.endPos :: rest)
    ∧ slice? subject m.start m.endPos = some m.subject := by
  unfold captures_read_at at h
  by_cases hle : start ≤ subject.length
  · rw [if_pos hle] at h
    cases he : eng start with
    | err e => rw [he] at h; simp [searchToCaps] at h
    | noMatch => rw [he] at h; simp [searchToCaps] at h
    | found s e rest =>
      rw [he] at h
      simp only [searchToCaps] at h
      cases hs : slice? subject s e with
      | none => rw [hs] at h; simp at h
      | some sub =>
        rw [hs] at h
        cases m with
        | mk msub mstart mend =>
          simp only [CapRes.ok.injEq, Option.some.injEq, Prod.mk.injEq, Match.mk.injEq] at h
          obtain ⟨⟨h1, h2, h3⟩, h4⟩ := h
          subst h1; subst h2; subst h3
          exact ⟨hle, ⟨rest, rfl, h4.symm⟩, hs⟩
  · rw [if_neg hle] at h
    simp at h

/-- The `a*` engine model is start-sane. -/
theorem engAStar_sane (subject : List Nat) : EngineSane (engAStar subject) := by
  intro start s e rest h
  simp only [engAStar, SearchRes.found.injEq] at h
  omega


/-- A completed body pass never reports the fuel sentinel. -/
theorem matchesStepFn_done_ne_out (eng : SearchFn) (subject : List Nat) (st : IterState)
    (r : NextRes) (st' : IterState) (h : matchesStepFn eng subject st = .done r st') :
    r ≠ NextRes.outOfFuel := by
  unfold matchesStepFn at h
  by_cases hlt : subject.length < st.last_end
  · simp only [if_pos hlt, MatchesStep.done.injEq] at h
    obtain ⟨h1, -⟩ := h
    subst h1
    simp
  · simp only [if_neg hlt] at h
    cases hf : find_at_with_match_data eng subject st.last_end with
    | panicAt =>
      rw [hf] at h
      simp only [MatchesStep.done.injEq] at h
      obtain ⟨h1, -⟩ := h
      subst h1
      simp
    | err e =>
      rw [hf] at h
      simp only [MatchesStep.done.injEq] at h
      obtain ⟨h1, -⟩ := h
      subst h1
      simp
    | ok om =>
      rw [hf] at h
      cases om with
      | none =>
        simp only [MatchesStep.done.injEq] at h
        obtain ⟨h1, -⟩ := h
        subst h1
        simp
      | some m =>
        by_cases hme : m.start = m.endPos
        · simp only [if_pos hme] at h
          by_cases hsup : some m.endPos = st.last_match
          · simp only [if_pos hsup] at h
            simp at h
          · simp only [if_neg hsup, MatchesStep.done.injEq] at h
            obtain ⟨h1, -⟩ := h
            subst h1
            simp
        · simp only [if_neg hme, MatchesStep.done.injEq] at h
          obtain ⟨h1, -⟩ := h
          subst h1
          simp

/-- A `retry` pass comes from a suppressed empty match at or after the
search floor (start-sane engine): the floor strictly advances, stays at
most `len + 1`, and `last_match` is untouched. -/
theorem matchesStepFn_retry_inv (eng : SearchFn) (subject : List Nat) (hs : EngineSane eng)
    (st st' : IterState) (h : matchesStepFn eng subject st = .retry st') :
    st.last_end < st'.last_end ∧ st'.last_end ≤ subject.length + 1
    ∧ st'.last_match = st.last_match := by
  unfold matchesStepFn at h
  by_cases hlt : subject.length < st.last_end
  · simp [if_pos hlt] at h
  · simp only [if_neg hlt] at h
    cases hf : find_at_with_match_data eng subject st.last_end with
    | panicAt => rw [hf] at h; simp at h
    | err e => rw [hf] at h; simp at h
    | ok om =>
      rw [hf] at h
      cases om with
      | none => simp at h
      | some m =>
        obtain ⟨hle, ⟨rest, he⟩, hsl⟩ := find_at_ok_some_inv eng subject st.last_end m hf
        have hstart : st.last_end ≤ m.start := hs _ _ _ _ he
        obtain ⟨hse, hel⟩ := slice?_some_bounds hsl
        by_cases hme : m.start = m.endPos
        · simp only [if_pos hme] at h
          by_cases hsup : some m.endPos = st.last_match
          · simp only [if_pos hsup, MatchesStep.retry.injEq] at h
            subst h
            refine ⟨?_, ?_, rfl⟩ <;> simp <;> omega
          · simp only [if_neg hsup] at h
            simp at h
        · simp only [if_neg hme] at h
          simp at h

/-- What a yielded match of one body pass guarantees under a start-sane
engine. -/
theorem matchesStepFn_yield_inv (eng : SearchFn) (subject : List Nat) (hs : EngineSane eng)
    (st : IterState) (m : Match) (st' : IterState)
    (h : matchesStepFn eng subject st = .done (.yieldMatch m) st') :
    st'.last_match = some m.endPos
    ∧ m.start ≤ m.endPos ∧ m.endPos ≤ subject.length
    ∧ st.last_end ≤ m.start
    ∧ st.last_end < st'.last_end
    ∧ m.endPos ≤ st'.last_end
    ∧ st'.last_end ≤ subject.length + 1 := by
  unfold matchesStepFn at h
  by_cases hlt : subject.length < st.last_end
  · simp [if_pos hlt] at h
  · simp only [if_neg hlt] at h
    cases hf : find_at_with_match_data eng subject st.last_end with
    | panicAt => rw [hf] at h; simp at h
    | err e => rw [hf] at h; simp at h
    | ok om =>
      rw [hf] at h
      cases om with
      | none => simp at h
      | some m0 =>
        obtain ⟨hle, ⟨rest, he⟩, hsl⟩ := find_at_ok_some_inv eng subject st.last_end m0 hf
        have hstart : st.last_end ≤ m0.start := hs _ _ _ _ he
        obtain ⟨hse, hel⟩ := slice?_some_bounds hsl
        by_cases hme : m0.start = m0.endPos
        · simp only [if_pos hme] at h
          by_cases hsup : some m0.endPos = st.last_match
          · simp only [if_pos hsup] at h
            simp at h
          · simp only [if_neg hsup, MatchesStep.done.injEq, NextRes.yieldMatch.injEq] at h
            obtain ⟨rfl, rfl⟩ := h
            refine ⟨rfl, hse, hel, hstart, ?_, ?_, ?_⟩ <;> simp <;> omega
        · simp only [if_neg hme, MatchesStep.done.injEq, NextRes.yieldMatch.injEq] at h
          obtain ⟨rfl, rfl⟩ := h
          refine ⟨rfl, hse, hel, hstart, ?_, ?_, ?_⟩ <;> simp <;> omega

/-- Regardless of the engine, a yielded match records its end in
`last_match`. -/
theorem matchesStepFn_yield_lastmatch (eng : SearchFn) (subject : List Nat) (st : IterState)
    (m : Match) (st' : IterState)
    (h : matchesStepFn eng subject st = .done (.yieldMatch m) st') :
    st'.last_match = some m.endPos := by
  unfold matchesStepFn at h
  by_cases hlt : subject.length < st.last_end
  · simp [if_pos hlt] at h
  · simp only [if_neg hlt] at h
    cases hf : find_at_with_match_data eng subject st.last_end with
    | panicAt => rw [hf] at h; simp at h
    | err e => rw [hf] at h; simp at h
    | ok om =>
      rw [hf] at h
      cases om with
      | none => simp at h
      | some m0 =>
        by_cases hme : m0.start = m0.endPos
        · simp only [if_pos hme] at h
          by_cases hsup : some m0.endPos = st.last_match
          · simp only [if_pos hsup] at h
            simp at h
          · simp only [if_neg hsup, MatchesStep.done.injEq, NextRes.yieldMatch.injEq] at h
            obtain ⟨rfl, rfl⟩ := h
            rfl
        · simp only [if_neg hme, MatchesStep.done.injEq, NextRes.yieldMatch.injEq] at h
          obtain ⟨rfl, rfl⟩ := h
          rfl

/-- Unfolding `Matches::next` on a completed body pass. -/
theorem matchesNextAux_done (eng : SearchFn) (subject : List Nat) (fuel : Nat)
    (st : IterState) (r : NextRes) (st' : IterState)
    (h : matchesStepFn eng subject st = .done r st') :
    Matches.nextAux eng subject fuel st = (r, st') := by
  conv_lhs => unfold Matches.nextAux
  rw [h]

/-- Unfolding `Matches::next` on a retry pass with no fuel left. -/
theorem matchesNextAux_retry0 (eng : SearchFn) (subject : List Nat)
    (st st' : IterState) (h : matchesStepFn eng subject st = .retry st') :
    Matches.nextAux eng subject 0 st = (NextRes.outOfFuel, st) := by
  conv_lhs => unfold Matches.nextAux
  rw [h]

/-- Unfolding `Matches::next` on a retry pass with fuel to spare. -/
theorem matchesNextAux_retry (eng : SearchFn) (subject : List Nat) (f : Nat)
    (st st' : IterState) (h : matchesStepFn eng subject st = .retry st') :
    Matches.nextAux eng subject (f + 1) st = Matches.nextAux eng subject f st' := by
  conv_lhs => unfold Matches.nextAux
  rw [h]

/-- Once a call to `Matches::next` completes within its fuel, adding fuel
does not change the outcome. -/
theorem matchesNextAux_fuel_ext (eng : SearchFn) (subject : List Nat) :
    ∀ f₁ f₂ st, (Matches.nextAux eng subject f₁ st).1 ≠ NextRes.outOfFuel → f₁ ≤ f₂ →
      Matches.nextAux eng subject f₂ st = Matches.nextAux eng subject f₁ st := by
  intro f₁
  induction f₁ with
  | zero =>
    intro f₂ st h _
    cases hstep : matchesStepFn eng subject st with
    | done r st' =>
      rw [matchesNextAux_done eng subject f₂ st r st' hstep,
        matchesNextAux_done eng subject 0 st r st' hstep]
    | retry st' =>
      rw [matchesNextAux_retry0 eng subject st st' hstep] at h
      exact absurd rfl h
  | succ f ih =>
    intro f₂ st h hle
    obtain ⟨f₂', rfl⟩ : ∃ k, f₂ = k + 1 := ⟨f₂ - 1, by omega⟩
    cases hstep : matchesStepFn eng subject st with
    | done r st' =>
      rw [matchesNextAux_done eng subject (f₂' + 1) st r st' hstep,
        matchesNextAux_done eng subject (f + 1) st r st' hstep]
    | retry st' =>
      rw [matchesNextAux_retry eng subject f st st' hstep] at h
      rw [matchesNextAux_retry eng subject f₂' st st' hstep,
        matchesNextAux_retry eng subject f st st' hstep]
      exact ih f₂' st' h (by omega)

/-- With fuel at least `len(subject) + 1 - last_end`, a call to
`Matches::next` driven by a start-sane engine never runs out of fuel:
each suppressed empty match strictly advances `last_end`. -/
theorem matchesNextAux_no_fuel_out (eng : SearchFn) (subject : List Nat)
    (hs : EngineSane eng) :
    ∀ fuel st, subject.length + 1 ≤ fuel + st.last_end →
      (Matches.nextAux eng subject fuel st).1 ≠ NextRes.outOfFuel := by
  intro fuel
  induction fuel with
  | zero =>
    intro st hb
    cases hstep : matchesStepFn eng subject st with
    | done r st' =>
      rw [matchesNextAux_done eng subject 0 st r st' hstep]
      exact matchesStepFn_done_ne_out eng subject st r st' hstep
    | retry st' =>
      obtain ⟨h1, h2, h3⟩ := matchesStepFn_retry_inv eng subject hs st st' hstep
      -- a retry needs `last_end ≤ len`, impossible at zero fuel budget
      have : ¬ (matchesStepFn eng subject st = .retry st') := by
        intro hc
        unfold matchesStepFn at hc
        have hlt : subject.length < st.last_end := by omega
        simp [if_pos hlt] at hc
      exact absurd hstep this
  | succ f ih =>
    intro st hb
    cases hstep : matchesStepFn eng subject st with
    | done r st' =>
      rw [matchesNextAux_done eng subject (f + 1) st r st' hstep]
      exact matchesStepFn_done_ne_out eng subject st r st' hstep
    | retry st' =>
      rw [matchesNextAux_retry eng subject f st st' hstep]
      obtain ⟨h1, h2, h3⟩ := matchesStepFn_retry_inv eng subject hs st st' hstep
      exact ih st' (by omega)

/-- What a yielded match of `Matches::next` guarantees under a start-sane
engine: the new state records `last_match = end`, the match is well formed
inside the subject, it begins at or after the search floor, and the floor
strictly advances to at least the match end (at most `len + 1`). -/
theorem matchesNextAux_yield_inv (eng : SearchFn) (subject : List Nat) (hs : EngineSane eng) :
    ∀ fuel st m st', Matches.nextAux eng subject fuel st = (NextRes.yieldMatch m, st') →
      st'.last_match = some m.endPos
      ∧ m.start ≤ m.endPos ∧ m.endPos ≤ subject.length
      ∧ st.last_end ≤ m.start
      ∧ st.last_end < st'.last_end
      ∧ m.endPos ≤ st'.last_end
      ∧ st'.last_end ≤ subject.length + 1 := by
  intro fuel
  induction fuel with
  | zero =>
    intro st m st' h
    cases hstep : matchesStepFn eng subject st with
    | done r st0 =>
      rw [matchesNextAux_done eng subject 0 st r st0 hstep] at h
      simp only [Prod.mk.injEq] at h
      obtain ⟨rfl, rfl⟩ := h
      exact matchesStepFn_yield_inv eng subject hs st m st0 hstep
    | retry st0 =>
      rw [matchesNextAux_retry0 eng subject st st0 hstep] at h
      simp at h
  | succ f ih =>
    intro st m st' h
    cases hstep : matchesStepFn eng subject st with
    | done r st0 =>
      rw [matchesNextAux_done eng subject (f + 1) st r st0 hstep] at h
      simp only [Prod.mk.injEq] at h
      obtain ⟨rfl, rfl⟩ := h
      exact matchesStepFn_yield_inv eng subject hs st m st0 hstep
    | retry st0 =>
      rw [matchesNextAux_retry eng subject f st st0 hstep] at h
      obtain ⟨i1, i2, i3, i4, i5, i6, i7⟩ := ih st0 m st' h
      obtain ⟨r1, r2, r3⟩ := matchesStepFn_retry_inv eng subject hs st st0 hstep
      exact ⟨i1, i2, i3, by omega, by omega, i6, i7⟩

/-- Regardless of the engine, a match yielded by `Matches::next` records
its end offset in `last_match`. -/
theorem matchesNextAux_yield_lastmatch (eng : SearchFn) (subject : List Nat) :
    ∀ fuel st m st', Matches.nextAux eng subject fuel st = (NextRes.yieldMatch m, st') →
      st'.last_match = some m.endPos := by
  intro fuel
  induction fuel with
  | zero =>
    intro st m st' h
    cases hstep : matchesStepFn eng subject st with
    | done r st0 =>
      rw [matchesNextAux_done eng subject 0 st r st0 hstep] at h
      simp only [Prod.mk.injEq] at h
      obtain ⟨rfl, rfl⟩ := h
      exact matchesStepFn_yield_lastmatch eng subject st m st0 hstep
    | retry st0 =>
      rw [matchesNextAux_retry0 eng subject st st0 hstep] at h
      simp at h
  | succ f ih =>
    intro st m st' h
    cases hstep : matchesStepFn eng subject st with
    | done r st0 =>
      rw [matchesNextAux_done eng subject (f + 1) st r st0 hstep] at h
      simp only [Prod.mk.injEq] at h
      obtain ⟨rfl, rfl⟩ := h
      exact matchesStepFn_yield_lastmatch eng subject st m st0 hstep
    | retry st0 =>
      rw [matchesNextAux_retry eng subject f st st0 hstep] at h
      exact ih st0 m st' h

/-- A completed `CaptureMatches` body pass never reports the fuel
sentinel. -/
theorem capStepFn_done_ne_out (eng : SearchFn) (idx : List (String × Nat))
    (subject : List Nat) (st : IterState) (r : CapNextRes) (st' : IterState)
    (h : capStepFn eng idx subject st = .done r st') : r ≠ CapNextRes.outOfFuel := by
  unfold capStepFn at h
  by_cases hlt : subject.length < st.last_end
  · simp only [if_pos hlt, CapStep.done.injEq] at h
    obtain ⟨h1, -⟩ := h
    subst h1
    simp
  · simp only [if_neg hlt] at h
    cases hf : captures_read_at eng subject st.last_end with
    | panicAt =>
      rw [hf] at h
      simp only [CapStep.done.injEq] at h
      obtain ⟨h1, -⟩ := h
      subst h1
      simp
    | err e =>
      rw [hf] at h
      simp only [CapStep.done.injEq] at h
      obtain ⟨h1, -⟩ := h
      subst h1
      simp
    | ok or =>
      rw [hf] at h
      cases or with
      | none =>
        simp only [CapStep.done.injEq] at h
        obtain ⟨h1, -⟩ := h
        subst h1
        simp
      | some pr =>
        obtain ⟨m, ovec⟩ := pr
        by_cases hme : m.start = m.endPos
        · simp only [if_pos hme] at h
          by_cases hsup : some m.endPos = st.last_match
          · simp only [if_pos hsup] at h
            simp at h
          · simp only [if_neg hsup, CapStep.done.injEq] at h
            obtain ⟨h1, -⟩ := h
            subst h1
            simp
        · simp only [if_neg hme, CapStep.done.injEq] at h
          obtain ⟨h1, -⟩ := h
          subst h1
          simp

/-- A `CaptureMatches` retry pass under a start-sane engine: the floor
strictly advances, stays at most `len + 1`, and `last_match` is
untouched. -/
theorem capStepFn_retry_inv (eng : SearchFn) (idx : List (String × Nat))
    (subject : List Nat) (hs : EngineSane eng) (st st' : IterState)
    (h : capStepFn eng idx subject st = .retry st') :
    st.last_end < st'.last_end ∧ st'.last_end ≤ subject.length + 1
    ∧ st'.last_match = st.last_match := by
  unfold capStepFn at h
  by_cases hlt : subject.length < st.last_end
  · simp [if_pos hlt] at h
  · simp only [if_neg hlt] at h
    cases hf : captures_read_at eng subject st.last_end with
    | panicAt => rw [hf] at h; simp at h
    | err e => rw [hf] at h; simp at h
    | ok or =>
      rw [hf] at h
      cases or with
      | none => simp at h
      | some pr =>
        obtain ⟨m, ovec⟩ := pr
        obtain ⟨hle, ⟨rest, he, hov⟩, hsl⟩ :=
          captures_read_at_ok_some_inv eng subject st.last_end m ovec hf
        have hstart : st.last_end ≤ m.start := hs _ _ _ _ he
        obtain ⟨hse, hel⟩ := slice?_some_bounds hsl
        by_cases hme : m.start = m.endPos
        · simp only [if_pos hme] at h
          by_cases hsup : some m.endPos = st.last_match
          · simp only [if_pos hsup, CapStep.retry.injEq] at h
            subst h
            refine ⟨?_, ?_, rfl⟩ <;> simp <;> omega
          · simp only [if_neg hsup] at h
            simp at h
        · simp only [if_neg hme] at h
          simp at h

/-- A `Captures` yielded by one body pass wraps the full subject, the
shared name map, and an ovector headed by the overall match pair whose end
is recorded in `last_match`. -/
theorem capStepFn_yield_shape (eng : SearchFn) (idx : List (String × Nat))
    (subject : List Nat) (st : IterState) (c : Captures) (st' : IterState)
    (h : capStepFn eng idx subject st = .done (.yieldCaps c) st') :
    c.subject = subject ∧ c.idx = idx
    ∧ ∃ e, st'.last_match = some e ∧ c.locs.ovector.get? 1 = some e := by
  unfold capStepFn at h
  by_cases hlt : subject.length < st.last_end
  · simp [if_pos hlt] at h
  · simp only [if_neg hlt] at h
    cases hf : captures_read_at eng subject st.last_end with
    | panicAt => rw [hf] at h; simp at h
    | err e => rw [hf] at h; simp at h
    | ok or =>
      rw [hf] at h
      cases or with
      | none => simp at h
      | some pr =>
        obtain ⟨m, ovec⟩ := pr
        obtain ⟨hle, ⟨rest, he, hov⟩, hsl⟩ :=
          captures_read_at_ok_some_inv eng subject st.last_end m ovec hf
        by_cases hme : m.start = m.endPos
        · simp only [if_pos hme] at h
          by_cases hsup : some m.endPos = st.last_match
          · simp only [if_pos hsup] at h
            simp at h
          · simp only [if_neg hsup, CapStep.done.injEq, CapNextRes.yieldCaps.injEq] at h
            obtain ⟨rfl, rfl⟩ := h
            refine ⟨rfl, rfl, m.endPos, rfl, ?_⟩
            simp [hov]
        · simp only [if_neg hme, CapStep.done.injEq, CapNextRes.yieldCaps.injEq] at h
          obtain ⟨rfl, rfl⟩ := h
          refine ⟨rfl, rfl, m.endPos, rfl, ?_⟩
          simp [hov]

/-- Unfolding `CaptureMatches::next` on a completed body pass. -/
theorem capNextAux_done (eng : SearchFn) (idx : List (String × Nat)) (subject : List Nat)
    (fuel : Nat) (st : IterState) (r : CapNextRes) (st' : IterState)
    (h : capStepFn eng idx subject st = .done r st') :
    CaptureMatches.nextAux eng idx subject fuel st = (r, st') := by
  conv_lhs => unfold CaptureMatches.nextAux
  rw [h]

/-- Unfolding `CaptureMatches::next` on a retry pass with no fuel left. -/
theorem capNextAux_retry0 (eng : SearchFn) (idx : List (String × Nat)) (subject : List Nat)
    (st st' : IterState) (h : capStepFn eng idx subject st = .retry st') :
    CaptureMatches.nextAux eng idx subject 0 st = (CapNextRes.outOfFuel, st) := by
  conv_lhs => unfold CaptureMatches.nextAux
  rw [h]

/-- Unfolding `CaptureMatches::next` on a retry pass with fuel to spare. -/
theorem capNextAux_retry (eng : SearchFn) (idx : List (String × Nat)) (subject : List Nat)
    (f : Nat) (st st' : IterState) (h : capStepFn eng idx subject st = .retry st') :
    CaptureMatches.nextAux eng idx subject (f + 1) st
      = CaptureMatches.nextAux eng idx subject f st' := by
  conv_lhs => unfold CaptureMatches.nextAux
  rw [h]

/-- Once a call to `CaptureMatches::next` completes within its fuel,
adding fuel does not change the outcome. -/
theorem capNextAux_fuel_ext (eng : SearchFn) (idx : List (String × Nat)) (subject : List Nat) :
    ∀ f₁ f₂ st, (CaptureMatches.nextAux eng idx subject f₁ st).1 ≠ CapNextRes.outOfFuel →
      f₁ ≤ f₂ →
      CaptureMatches.nextAux eng idx subject f₂ st
        = CaptureMatches.nextAux eng idx subject f₁ st := by
  intro f₁
  induction f₁ with
  | zero =>
    intro f₂ st h _
    cases hstep : capStepFn eng idx subject st with
    | done r st' =>
      rw [capNextAux_done eng idx subject f₂ st r st' hstep,
        capNextAux_done eng idx subject 0 st r st' hstep]
    | retry st' =>
      rw [capNextAux_retry0 eng idx subject st st' hstep] at h
      exact absurd rfl h
  | succ f ih =>
    intro f₂ st h hle
    obtain ⟨f₂', rfl⟩ : ∃ k, f₂ = k + 1 := ⟨f₂ - 1, by omega⟩
    cases hstep : capStepFn eng idx subject st with
    | done r st' =>
      rw [capNextAux_done eng idx subject (f₂' + 1) st r st' hstep,
        capNextAux_done eng idx subject (f + 1) st r st' hstep]
    | retry st' =>
      rw [capNextAux_retry eng idx subject f st st' hstep] at h
      rw [capNextAux_retry eng idx subject f₂' st st' hstep,
        capNextAux_retry eng idx subject f st st' hstep]
      exact ih f₂' st' h (by omega)

/-- With fuel at least `len(subject) + 1 - last_end`, a call to
`CaptureMatches::next` driven by a start-sane engine never runs out of
fuel. -/
theorem capNextAux_no_fuel_out (eng : SearchFn) (idx : List (String × Nat))
    (subject : List Nat) (hs : EngineSane eng) :
    ∀ fuel st, subject.length + 1 ≤ fuel + st.last_end →
      (CaptureMatches.nextAux eng idx subject fuel st).1 ≠ CapNextRes.outOfFuel := by
  intro fuel
  induction fuel with
  | zero =>
    intro st hb
    cases hstep : capStepFn eng idx subject st with
    | done r st' =>
      rw [capNextAux_done eng idx subject 0 st r st' hstep]
      exact capStepFn_done_ne_out eng idx subject st r st' hstep
    | retry st' =>
      have : ¬ (capStepFn eng idx subject st = .retry st') := by
        intro hc
        unfold capStepFn at hc
        have hlt : subject.length < st.last_end := by omega
        simp [if_pos hlt] at hc
      exact absurd hstep this
  | succ f ih =>
    intro st hb
    cases hstep : capStepFn eng idx subject st with
    | done r st' =>
      rw [capNextAux_done eng idx subject (f + 1) st r st' hstep]
      exact capStepFn_done_ne_out eng idx subject st r st' hstep
    | retry st' =>
      rw [capNextAux_retry eng idx subject f st st' hstep]
      obtain ⟨h1, h2, h3⟩ := capStepFn_retry_inv eng idx subject hs st st' hstep
      exact ih st' (by omega)

/-- A `Captures` yielded by `CaptureMatches::next` wraps the full subject
and shared name map, and the new state records the overall match end (the
second ovector slot) in `last_match`. -/
theorem capNextAux_yield_shape (eng : SearchFn) (idx : List (String × Nat))
    (subject : List Nat) :
    ∀ fuel st c st',
      CaptureMatches.nextAux eng idx subject fuel st = (CapNextRes.yieldCaps c, st') →
      c.subject = subject ∧ c.idx = idx
      ∧ ∃ e, st'.last_match = some e ∧ c.locs.ovector.get? 1 = some e := by
  intro fuel
  induction fuel with
  | zero =>
    intro st c st' h
    cases hstep : capStepFn eng idx subject st with
    | done r st0 =>
      rw [capNextAux_done eng idx subject 0 st r st0 hstep] at h
      simp only [Prod.mk.injEq] at h
      obtain ⟨rfl, rfl⟩ := h
      exact capStepFn_yield_shape eng idx subject st c st0 hstep
    | retry st0 =>
      rw [capNextAux_retry0 eng idx subject st st0 hstep] at h
      simp at h
  | succ f ih =>
    intro st c st' h
    cases hstep : capStepFn eng idx subject st with
    | done r st0 =>
      rw [capNextAux_done eng idx subject (f + 1) st r st0 hstep] at h
      simp only [Prod.mk.injEq] at h
      obtain ⟨rfl, rfl⟩ := h
      exact capStepFn_yield_shape eng idx subject st c st0 hstep
    | retry st0 =>
      rw [capNextAux_retry eng idx subject f st st0 hstep] at h
      exact ih st0 c st' h

/-- Under a start-sane engine, the number of matches a `find_iter` run
yields from a given state is bounded by the room left below
`len(subject) + 1`. -/
theorem runIter_count_le (eng : SearchFn) (subject : List Nat) (hs : EngineSane eng) :
    ∀ fuel st, (yieldedRanges (runIter eng subject fuel st)).length
      ≤ subject.length + 1 - st.last_end := by
  intro fuel
  induction fuel with
  | zero => intro st; simp [runIter, yieldedRanges]
  | succ f ih =>
    intro st
    cases hn : Matches.next eng subject st with
    | mk r st' =>
      cases r with
      | stop => simp [runIter, hn, yieldedRanges]
      | yieldErr e => simp [runIter, hn, yieldedRanges]
      | panicked => simp [runIter, hn, yieldedRanges]
      | outOfFuel => simp [runIter, hn, yieldedRanges]
      | yieldMatch m =>
        obtain ⟨-, -, -, -, i5, -, i7⟩ :=
          matchesNextAux_yield_inv eng subject hs (subject.length + 2) st m st' hn
        have hih := ih st'
        simp only [runIter, hn, yieldedRanges, List.filterMap_cons, List.length_cons]
        simp only [yieldedRanges] at hih
        omega

/-- C5. `find_iter` always terminates under a start-sane engine: no call
to `Matches::next` or `CaptureMatches::next` exhausts the recursion fuel
(the suppressed-empty-match retry strictly advances `last_end`), and a run
from the initial state yields at most `len(subject) + 1` matches — in
particular for a pattern matching the empty string at every position. -/
theorem find_iter_terminates (eng : SearchFn) (subject : List Nat) (hs : EngineSane eng) :
    (∀ st : IterState, (Matches.next eng subject st).1 ≠ NextRes.outOfFuel)
    ∧ (∀ (idx : List (String × Nat)) (st : IterState),
        (CaptureMatches.next eng idx subject st).1 ≠ CapNextRes.outOfFuel)
    ∧ ∀ fuel, (yieldedRanges (runIter eng subject fuel IterState.initial)).length
        ≤ subject.length + 1 := by
  refine ⟨?_, ?_, ?_⟩
  · intro st
    exact matchesNextAux_no_fuel_out eng subject hs (subject.length + 2) st (by omega)
  · intro idx st
    exact capNextAux_no_fuel_out eng idx subject hs (subject.length + 2) st (by omega)
  · intro fuel
    have h := runIter_count_le eng subject hs fuel IterState.initial
    simpa [IterState.initial] using h

/-- C5, witnessed on the `a*` engine over `"aaa"`. -/
theorem find_iter_terminates_witness :
    (Matches.next (engAStar subjAAA) subjAAA IterState.initial).1 ≠ NextRes.outOfFuel
    ∧ (yieldedRanges (runIter (engAStar subjAAA) subjAAA 10 IterState.initial)).length
        ≤ subjAAA.length + 1 :=
  ⟨(find_iter_terminates (engAStar subjAAA) subjAAA (engAStar_sane subjAAA)).1
      IterState.initial,
   (find_iter_terminates (engAStar subjAAA) subjAAA (engAStar_sane subjAAA)).2.2 10⟩

/-- C4. Under a start-sane engine, consecutively yielded matches of
`find_iter` are non-overlapping and in non-decreasing start order:
`next_match.start ≥ prev_match.end` (hence also
`next_match.start ≥ prev_match.start`). -/
theorem find_iter_ordered (eng : SearchFn) (subject : List Nat) (hs : EngineSane eng)
    (st st' st'' : IterState) (m m' : Match)
    (h1 : Matches.next eng subject st = (.yieldMatch m, st'))
    (h2 : Matches.next eng subject st' = (.yieldMatch m', st'')) :
    m.endPos ≤ m'.start ∧ m.start ≤ m'.start := by
  obtain ⟨-, a2, -, -, -, a6, -⟩ :=
    matchesNextAux_yield_inv eng subject hs (subject.length + 2) st m st' h1
  obtain ⟨-, -, -, b4, -, -, -⟩ :=
    matchesNextAux_yield_inv eng subject hs (subject.length + 2) st' m' st'' h2
  omega

/-- C4, witnessed on the `a*` engine over `"aaab"`: the consecutive
matches `[0, 3)` and `[4, 4)` satisfy the ordering. -/
theorem find_iter_ordered_witness : (3 : Nat) ≤ 4 ∧ (0 : Nat) ≤ 4 :=
  find_iter_ordered (engAStar subjAAAB) subjAAAB (engAStar_sane subjAAAB)
    IterState.initial ⟨3, some 3⟩ ⟨5, some 4⟩ ⟨[97, 97, 97], 0, 3⟩ ⟨[], 4, 4⟩
    (by decide) (by decide)

/-- C2. The iteration protocol of `Matches::next` and
`CaptureMatches::next`: past the end of the subject the call produces no
item; otherwise the search runs at `last_end` and, on a match `[s, e)`
(with the view construction succeeding), a non-empty match is yielded with
`last_end = e`, a fresh empty match is yielded with `last_end = e + 1`, an
empty match whose end equals `last_match` is suppressed by retrying at the
advanced `last_end` (shown for a start-sane engine), and every yielded
item records `last_match = Some(e)`. -/
theorem iter_next_protocol (eng : SearchFn) (idx : List (String × Nat)) (subject : List Nat)
    (st : IterState) :
    (subject.length < st.last_end →
      Matches.next eng subject st = (.stop, st)
      ∧ CaptureMatches.next eng idx subject st = (.stop, st))
    ∧ (∀ s e rest sub, st.last_end ≤ subject.length →
        eng st.last_end = .found s e rest → slice? subject s e = some sub →
        ((s < e →
            Matches.next eng subject st = (.yieldMatch ⟨sub, s, e⟩, ⟨e, some e⟩)
            ∧ CaptureMatches.next eng idx subject st
              = (.yieldCaps ⟨subject, ⟨s :: e :: rest⟩, idx⟩, ⟨e, some e⟩))
         ∧ (s = e → some e ≠ st.last_match →
            Matches.next eng subject st = (.yieldMatch ⟨sub, s, e⟩, ⟨e + 1, some e⟩)
            ∧ CaptureMatches.next eng idx subject st
              = (.yieldCaps ⟨subject, ⟨s :: e :: rest⟩, idx⟩, ⟨e + 1, some e⟩))
         ∧ (s = e → some e = st.last_match → EngineSane eng →
            Matches.next eng subject st = Matches.next eng subject ⟨e + 1, st.last_match⟩
            ∧ CaptureMatches.next eng idx subject st
              = CaptureMatches.next eng idx subject ⟨e + 1, st.last_match⟩)))
    ∧ (∀ m st', Matches.next eng subject st = (.yieldMatch m, st') →
        st'.last_match = some m.endPos)
    ∧ (∀ c st', CaptureMatches.next eng idx subject st = (.yieldCaps c, st') →
        ∃ q, st'.last_match = some q ∧ c.locs.ovector.get? 1 = some q) := by
  refine ⟨?_, ?_, ?_, ?_⟩
  · intro hlt
    have hm : matchesStepFn eng subject st = .done .stop st := by
      unfold matchesStepFn; rw [if_pos hlt]
    have hc : capStepFn eng idx subject st = .done .stop st := by
      unfold capStepFn; rw [if_pos hlt]
    exact ⟨matchesNextAux_done eng subject (subject.length + 2) st _ _ hm,
      capNextAux_done eng idx subject (subject.length + 2) st _ _ hc⟩
  · intro s e rest sub hle he hsl
    have hnlt : ¬ subject.length < st.last_end := by omega
    have hfind : find_at_with_match_data eng subject st.last_end = .ok (some ⟨sub, s, e⟩) := by
      unfold find_at_with_match_data
      rw [if_pos hle, he]
      simp [searchToFind, hsl]
    have hcaps : captures_read_at eng subject st.last_end
        = .ok (some (⟨sub, s, e⟩, s :: e :: rest)) := by
      unfold captures_read_at
      rw [if_pos hle, he]
      simp [searchToCaps, hsl]
    refine ⟨?_, ?_, ?_⟩
    · intro hlt'
      have hne : ¬ (s = e) := by omega
      have hm : matchesStepFn eng subject st
          = .done (.yieldMatch ⟨sub, s, e⟩) ⟨e, some e⟩ := by
        unfold matchesStepFn
        rw [if_neg hnlt, hfind]
        simp [hne]
      have hc : capStepFn eng idx subject st
          = .done (.yieldCaps ⟨subject, ⟨s :: e :: rest⟩, idx⟩) ⟨e, some e⟩ := by
        unfold capStepFn
        rw [if_neg hnlt, hcaps]
        simp [hne]
      exact ⟨matchesNextAux_done eng subject (subject.length + 2) st _ _ hm,
        capNextAux_done eng idx subject (subject.length + 2) st _ _ hc⟩
    · intro heq hsup
      have hm : matchesStepFn eng subject st
          = .done (.yieldMatch ⟨sub, s, e⟩) ⟨e + 1, some e⟩ := by
        unfold matchesStepFn
        rw [if_neg hnlt, hfind]
        simp [heq, hsup]
      have hc : capStepFn eng idx subject st
          = .done (.yieldCaps ⟨subject, ⟨s :: e :: rest⟩, idx⟩) ⟨e + 1, some e⟩ := by
        unfold capStepFn
        rw [if_neg hnlt, hcaps]
        simp [heq, hsup]
      exact ⟨matchesNextAux_done eng subject (subject.length + 2) st _ _ hm,
        capNextAux_done eng idx subject (subject.length + 2) st _ _ hc⟩
    · intro heq hsup hsane
      have hm : matchesStepFn eng subject st = .retry ⟨e + 1, st.last_match⟩ := by
        unfold matchesStepFn
        rw [if_neg hnlt, hfind]
        simp [heq, hsup]
      have hc : capStepFn eng idx subject st = .retry ⟨e + 1, st.last_match⟩ := by
        unfold capStepFn
        rw [if_neg hnlt, hcaps]
        simp [heq, hsup]
      constructor
      · have hno := matchesNextAux_no_fuel_out eng subject hsane (subject.length + 1)
          ⟨e + 1, st.last_match⟩ (Nat.le_add_right _ _)
        have hext := matchesNextAux_fuel_ext eng subject (subject.length + 1)
          (subject.length + 2) ⟨e + 1, st.last_match⟩ hno (by omega)
        calc Matches.next eng subject st
            = Matches.nextAux eng subject (subject.length + 1) ⟨e + 1, st.last_match⟩ :=
              matchesNextAux_retry eng subject (subject.length + 1) st
                ⟨e + 1, st.last_match⟩ hm
          _ = Matches.next eng subject ⟨e + 1, st.last_match⟩ := hext.symm
      · have hno := capNextAux_no_fuel_out eng idx subject hsane (subject.length + 1)
          ⟨e + 1, st.last_match⟩ (Nat.le_add_right _ _)
        have hext := capNextAux_fuel_ext eng idx subject (subject.length + 1)
          (subject.length + 2) ⟨e + 1, st.last_match⟩ hno (by omega)
        calc CaptureMatches.next eng idx subject st
            = CaptureMatches.nextAux eng idx subject (subject.length + 1)
                ⟨e + 1, st.last_match⟩ :=
              capNextAux_retry eng idx subject (subject.length + 1) st
                ⟨e + 1, st.last_match⟩ hc
          _ = CaptureMatches.next eng idx subject ⟨e + 1, st.last_match⟩ := hext.symm
  · intro m st' h
    exact matchesNextAux_yield_lastmatch eng subject (subject.length + 2) st m st' h
  · intro c st' h
    obtain ⟨-, -, q, hq1, hq2⟩ :=
      capNextAux_yield_shape eng idx subject (subject.length + 2) st c st' h
    exact ⟨q, hq1, hq2⟩

/-- C2, witnessed on the `a*` engine over `"aaab"`: past-the-end state
stops, and the suppressed empty match at offset 3 retries at offset 4. -/
theorem iter_next_protocol_witness :
    Matches.next (engAStar subjAAAB) subjAAAB ⟨5, some 4⟩ = (.stop, ⟨5, some 4⟩)
    ∧ Matches.next (engAStar subjAAAB) subjAAAB ⟨3, some 3⟩
        = Matches.next (engAStar subjAAAB) subjAAAB ⟨4, some 3⟩ := by
  constructor
  · exact ((iter_next_protocol (engAStar subjAAAB) [] subjAAAB ⟨5, some 4⟩).1 (by decide)).1
  · exact (((iter_next_protocol (engAStar subjAAAB) [] subjAAAB ⟨3, some 3⟩).2.1 3 3 [] []
      (by decide) (by decide) (by decide)).2.2 rfl rfl (engAStar_sane subjAAAB)).1
